import Mathlib

/-!
Verification of the core logic of pg_wormhole: the connection stack
(src/wormhole/connection.py), the dual-mode cursor and its placeholder
translation (src/wormhole/query.py), the remote-function install cache
(src/wormhole/remote.py), and the transaction/savepoint scopes
(src/wormhole/transaction.py).

Python strings are embedded as `List Char`; Python dicts that only need
insertion order and values are embedded as association lists.  Loops whose
Python form is `while` are embedded with an explicit structural fuel that
provably dominates the number of iterations, so every definition evaluates
by kernel reduction.
-/

/-! ## Generic string machinery (Python `in`, `str.replace`, `f-string` digits) -/

/-- Substring test: embedding of Python `pat in s` for `pat ≠ ""`. -/
def occursSub (pat : List Char) : List Char → Bool
  | [] => pat.isEmpty
  | c :: rest => pat.isPrefixOf (c :: rest) || occursSub pat rest

/-- Embedding of Python `s.replace(pat, repl, 1)`: replace the leftmost
occurrence of `pat` only. -/
def replaceFirst (pat repl : List Char) : List Char → List Char
  | [] => []
  | c :: rest =>
    if pat.isPrefixOf (c :: rest) then repl ++ rest.drop (pat.length - 1)
    else c :: replaceFirst pat repl rest

/-- Fueled worker for `replaceAll`; the fuel dominates the length of the
string, which bounds the number of scanning steps. -/
def replaceAllAux (pat repl : List Char) : Nat → List Char → List Char
  | 0, s => s
  | _ + 1, [] => []
  | f + 1, c :: rest =>
    if pat.isPrefixOf (c :: rest) && !pat.isEmpty then
      repl ++ replaceAllAux pat repl f (rest.drop (pat.length - 1))
    else c :: replaceAllAux pat repl f rest

/-- Embedding of Python `s.replace(pat, repl)`: replace all non-overlapping
occurrences, scanning left to right. -/
def replaceAll (pat repl s : List Char) : List Char :=
  replaceAllAux pat repl s.length s

/-- Fueled decimal rendering of a natural number, least significant digit
peeled by `% 10`, as Python does when formatting an integer. -/
def natDigitsAux : Nat → Nat → List Char
  | 0, _ => []
  | f + 1, n =>
    if n < 10 then [Nat.digitChar n]
    else natDigitsAux f (n / 10) ++ [Nat.digitChar (n % 10)]

/-- Decimal digits of `n`, e.g. `natDigits 12 = ['1', '2']`. -/
def natDigits (n : Nat) : List Char := natDigitsAux (n + 1) n

/-- The numbered placeholder `f-string` of Python, e.g. `dollarMarker 3 = "$3"`. -/
def dollarMarker (n : Nat) : List Char := '$' :: natDigits n

/-- The sequential unlabeled placeholder `"%s"`. -/
def pctS : List Char := ['%', 's']

/-- Count of `'%'` characters; each iteration of the in-engine translation
loop consumes one of them, so this bounds the iteration count. -/
def countPct (s : List Char) : Nat := s.countP (fun c => c == '%')

/-- Decimal value of a digit string, `digitsVal "12" = 12`. -/
def digitsVal (s : List Char) : Nat := s.foldl (fun a c => 10 * a + (c.toNat - 48)) 0

/-! ## Placeholder translation (src/wormhole/query.py, WormholeCursor.execute) -/

/-- The in-engine translation loop of `execute` (server-side branch):
`while '%s' in converted_sql: converted_sql = converted_sql.replace('%s', f'$n', 1)`
with `n` counting up from 1.  Fuel-based embedding of the `while` loop. -/
def toDollarAux : Nat → List Char → Nat → List Char
  | 0, s, _ => s
  | f + 1, s, n =>
    if occursSub pctS s then toDollarAux f (replaceFirst pctS (dollarMarker n) s) (n + 1)
    else s

/-- In-engine translation of `execute`: rewrite sequential `%s` markers into
numbered `$1, $2, ...` markers.  The fuel `s.length` dominates `countPct s`,
which dominates the number of loop iterations. -/
def convertPctToDollar (s : List Char) : List Char := toDollarAux s.length s 1

/-- The external-client translation loop of `execute` (client-side branch):
`i = len(param_list); while i > 0: if f'$i' in sql: sql = sql.replace(f'$i', '%s'); i -= 1`.
`dollarToPct k s` runs the loop for `i = k` down to `1`. -/
def dollarToPct : Nat → List Char → List Char
  | 0, s => s
  | i + 1, s =>
    dollarToPct i
      (if occursSub (dollarMarker (i + 1)) s then replaceAll (dollarMarker (i + 1)) pctS s
       else s)

/-- Specification-side description of the in-engine translation (from the
spec text, for comparison with `convertPctToDollar`): scan left to right and
replace the `n`-th sequential marker with the numbered marker `$n`. -/
def scanTranslate : List Char → Nat → List Char
  | [], _ => []
  | [c], _ => [c]
  | c :: d :: rest, n =>
    if c = '%' ∧ d = 's' then dollarMarker n ++ scanTranslate rest (n + 1)
    else c :: scanTranslate (d :: rest) n

/-- Intermediate rendering used to reason about the inverse loop: the `n`-th
sequential marker is shown as `$n` while `n ≤ j` and as `%s` otherwise, so
`mixedRender j s 1` is the state of the text after the inverse loop has
already processed all indices above `j`. -/
def mixedRender (j : Nat) : List Char → Nat → List Char
  | [], _ => []
  | [c], _ => [c]
  | c :: d :: rest, n =>
    if c = '%' ∧ d = 's' then
      (if n ≤ j then dollarMarker n else pctS) ++ mixedRender j rest (n + 1)
    else c :: mixedRender j (d :: rest) n

/-- Number of sequential `%s` markers in a text, counted the way the
translation loop consumes them (left to right, non-overlapping). -/
def markerCount : List Char → Nat
  | [] => 0
  | [_] => 0
  | c :: d :: rest =>
    if c = '%' ∧ d = 's' then markerCount rest + 1 else markerCount (d :: rest)

/-- No numbered marker anywhere in the text: no `'$'` immediately followed by
a decimal digit. -/
def noDollarDigit : List Char → Bool
  | [] => true
  | [_] => true
  | c :: d :: rest => !(c == '$' && d.isDigit) && noDollarDigit (d :: rest)

/-- A counterexample text with ten sequential markers, the first of which is
immediately followed by the digit `0`. -/
def sqlTenMarkers : List Char := ("%s0 %s %s %s %s %s %s %s %s %s").toList

/-! ## Numbered-marker SQL texts for the external-client rewrite (claim C5) -/

/-- A numbered-marker SQL text, split into literal segments and `$i` markers. -/
inductive SqlChunk where
  | lit (s : List Char)
  | mark (i : Nat)

/-- Render a chunk list with markers of index `≤ j` shown as `$i` and markers
of index `> j` shown as `%s`; `renderChunks k` (all markers numbered) is the
input of the client-side rewrite and `renderChunks 0` is its intended output. -/
def renderChunks (j : Nat) : List SqlChunk → List Char
  | [] => []
  | .lit s :: rest => s ++ renderChunks j rest
  | .mark i :: rest => (if i ≤ j then dollarMarker i else pctS) ++ renderChunks j rest

/-- Adjacent literal segments are merged, so a literal is never followed
directly by another literal. -/
def noLitHead : List SqlChunk → Bool
  | .lit _ :: _ => false
  | _ => true

/-- The continuation after a marker must not begin with a digit, or the text
itself would read as a longer numbered marker. -/
def noDigitHead : List SqlChunk → Bool
  | .lit (c :: _) :: _ => !c.isDigit
  | _ => true

/-- Well-formed chunk list for parameter count `k`: literal segments are
non-empty, contain no numbered marker of their own and are never adjacent; a
literal directly after a marker does not start with a digit; marker indices
lie in `1..k`. -/
def chunksWF (k : Nat) : List SqlChunk → Bool
  | [] => true
  | .lit s :: rest =>
    !s.isEmpty && noDollarDigit s && noLitHead rest && chunksWF k rest
  | .mark i :: rest =>
    decide (1 ≤ i) && decide (i ≤ k) && noDigitHead rest && chunksWF k rest

/-- A concrete well-formed text `SELECT $12, $1` with twelve parameters. -/
def chunksTwelve : List SqlChunk :=
  [.lit ("SELECT ").toList, .mark 12, .lit (", ").toList, .mark 1]

/-! ## Cursor result sets and fetch operations (src/wormhole/query.py) -/

/-- A row mapping (column name to value), in column order, as produced by
both execution modes. -/
abbrev Row (α : Type) := List (String × α)

/-- The cursor state of `WormholeCursor`: stored result set, rowcount,
column description, and the zero-based read position `_current_index`. -/
structure WormholeCursor (α : Type) where
  results : Option (List (Row α))
  rowcount : Int
  description : Option (List String)
  currentIndex : Nat
deriving DecidableEq

/-- The field state established by `WormholeCursor.__init__` before any
`execute`. -/
def initialCursor (α : Type) : WormholeCursor α :=
  ⟨none, -1, none, 0⟩

/-- Python `tuple(row_dict.values())`. -/
def rowTuple (r : Row α) : List α := r.map Prod.snd

/-- State update of the server-side branch of `execute`: store the rows of
the in-engine call, take `nrows` (defaulting to the row count), reset the
position, and synthesize the description from the keys of the first row. -/
def executeServer (rows : List (Row α)) (nrows : Option Int) (c : WormholeCursor α) :
    WormholeCursor α :=
  { c with
    results := some rows
    rowcount := nrows.getD (rows.length : Int)
    currentIndex := 0
    description := if rows.isEmpty then none else some ((rows.headD []).map Prod.fst) }

/-- State update of the client-side branch of `execute`: when the driver
reports a description, zip its column names with each positional row; when it
reports none, store an empty list; either way reset the position. -/
def executeClient (desc : Option (List String)) (driverRows : List (List α))
    (driverRowcount : Int) (c : WormholeCursor α) : WormholeCursor α :=
  match desc with
  | some columns =>
    { c with
      results := some (driverRows.map (fun r => columns.zip r))
      description := some columns
      rowcount := driverRowcount
      currentIndex := 0 }
  | none =>
    { c with
      results := some []
      description := none
      rowcount := driverRowcount
      currentIndex := 0 }

/-- `fetchone`: return the row at the current position as a positional tuple
and advance by one, or return `none` (without moving) when no results are
stored or the position has reached the end. -/
def fetchone (c : WormholeCursor α) : Option (List α) × WormholeCursor α :=
  match c.results with
  | none => (none, c)
  | some rs =>
    if c.currentIndex < rs.length then
      (some (rowTuple (rs.getD c.currentIndex [])), { c with currentIndex := c.currentIndex + 1 })
    else (none, c)

/-- `fetchmany(size)`: call `fetchone` up to `size` times, stopping at the
first `none`. -/
def fetchmany : WormholeCursor α → Nat → List (List α) × WormholeCursor α
  | c, 0 => ([], c)
  | c, s + 1 =>
    match fetchone c with
    | (none, c') => ([], c')
    | (some r, c') =>
      let p := fetchmany c' s
      (r :: p.1, p.2)

/-- Fueled worker for the `while self._current_index < len(self._results)`
loop of `fetchall`; the fuel dominates the number of remaining rows. -/
def fetchallAux (rs : List (Row α)) : Nat → Nat → List (List α) × Nat
  | 0, i => ([], i)
  | f + 1, i =>
    if i < rs.length then
      let p := fetchallAux rs f (i + 1)
      (rowTuple (rs.getD i []) :: p.1, p.2)
    else ([], i)

/-- `fetchall`: collect every remaining row as a positional tuple, advancing
the position past each collected row; an unset result set yields `[]`. -/
def fetchall (c : WormholeCursor α) : List (List α) × WormholeCursor α :=
  match c.results with
  | none => ([], c)
  | some rs =>
    let p := fetchallAux rs rs.length c.currentIndex
    (p.1, { c with currentIndex := p.2 })

/-- `fetchall_dict`: return the remaining rows as mappings, via the slice
`self._results[self._current_index:]`; the position is not touched. -/
def fetchall_dict (c : WormholeCursor α) : List (Row α) × WormholeCursor α :=
  match c.results with
  | none => ([], c)
  | some rs => (rs.drop c.currentIndex, c)

/-- `fetchone_dict`: like `fetchone` but returning the row mapping itself. -/
def fetchone_dict (c : WormholeCursor α) : Option (Row α) × WormholeCursor α :=
  match c.results with
  | none => (none, c)
  | some rs =>
    if c.currentIndex < rs.length then
      (some (rs.getD c.currentIndex []), { c with currentIndex := c.currentIndex + 1 })
    else (none, c)

/-- A sequence of `m` successive `fetchone` calls, collecting each result. -/
def fetchoneSeq : Nat → WormholeCursor α → List (Option (List α)) × WormholeCursor α
  | 0, c => ([], c)
  | m + 1, c =>
    let p := fetchone c
    let q := fetchoneSeq m p.2
    (p.1 :: q.1, q.2)

/-! ## Connection stack (src/wormhole/connection.py) -/

/-- `set_connection`: Python `stack.append(conn)`; the top of the stack is
the last element. -/
def set_connection (conn : γ) (st : List γ) : List γ := st ++ [conn]

/-- `get_connection`: return `stack[-1]`, or `None` when the stack is empty,
without mutating the stack. -/
def get_connection (st : List γ) : Option γ := st.getLast?

/-- `pop_connection`: remove and return the last element, or return `None`
and leave the empty stack untouched. -/
def pop_connection (st : List γ) : Option γ × List γ :=
  if st.isEmpty then (none, st) else (st.getLast?, st.dropLast)

/-! ## Remote function install cache (src/wormhole/remote.py) -/

/-- The install-related state of a `RemoteFunction`: cached handle, the
`_installed` flag, and an instrumentation counter of issued install RPCs
(the call counter of a test double of `wormhole_install`). -/
structure RFState (η : Type) where
  funcId : Option η
  installed : Bool
  installCalls : Nat
deriving DecidableEq

/-- Observable events of one `RemoteFunction.__call__`. -/
inductive RFEv where
  | install (callIdx : Nat)
  | invoke
deriving DecidableEq

/-- The state created by `RemoteFunction.__init__`: no handle, not
installed, no install RPC issued yet. -/
def initialRFState (η : Type) : RFState η := ⟨none, false, 0⟩

/-- Recognizer of install events, for counting issued install RPCs. -/
def isInstallEv : RFEv → Bool
  | .install _ => true
  | .invoke => false

/-- `_install_on_server`: return immediately when `_installed` is already
set; otherwise issue the install RPC (whose response is read from `resp`),
cache the returned handle, and set the flag.  The `cached` component of the
RPC response is ignored by the code, so it is not modeled. -/
def installOnServer (resp : Nat → η) (s : RFState η) : List RFEv × RFState η :=
  if s.installed then ([], s)
  else ([.install s.installCalls], ⟨some (resp s.installCalls), true, s.installCalls + 1⟩)

/-- `__call__`: install first when the flag is clear, then issue the invoke
RPC; invocation itself does not change the install state. -/
def rfCall (resp : Nat → η) (s : RFState η) : List RFEv × RFState η :=
  let p := if s.installed then ([], s) else installOnServer resp s
  (p.1 ++ [.invoke], p.2)

/-- A sequence of `m` invocations of the same `RemoteFunction` object. -/
def runCalls (resp : Nat → η) : Nat → RFState η → List RFEv × RFState η
  | 0, s => ([], s)
  | m + 1, s =>
    let p := rfCall resp s
    let q := runCalls resp m p.2
    (p.1 ++ q.1, q.2)

/-! ## Transaction scope (src/wormhole/transaction.py) -/

/-- The five conflict markers of `_is_retryable_error`. -/
def retryable_conditions : List (List Char) :=
  [("serialization failure").toList,
   ("deadlock detected").toList,
   ("cannot execute").toList,
   ("read-only transaction").toList,
   ("could not serialize").toList]

/-- Python `str.lower()` on the ASCII texts involved. -/
def lowerStr (s : List Char) : List Char := s.map Char.toLower

/-- `_is_retryable_error`: case-insensitive substring match of the message
against the fixed marker list. -/
def is_retryable_error (msg : List Char) : Bool :=
  retryable_conditions.any (fun cond => occursSub cond (lowerStr msg))

/-- Observable events of one `transaction` scope. -/
inductive TxEv where
  | rollback
  | runWork
  | sleepFor (delay : Rat)
  | commit
deriving DecidableEq

/-- Outcome of a `transaction` scope. -/
inductive TxOutcome where
  | ok
  | reraise (msg : List Char)
  | retriesExhausted (lastMsg : List Char)
  | protocolError (msg : List Char)
deriving DecidableEq

/-- The tag of the `RuntimeError` that `contextlib` raises when a
`@contextmanager` generator yields again after an exception was thrown in. -/
def genStopMsg : List Char := ("generator did not stop after throw").toList

/-- The `transaction(max_retries, retry_delay)` scope applied to a unit of
work that either completes cleanly (`none`) or raises a message (`some msg`).
The definition composes the generator body of `transaction` with the Python
`contextlib.contextmanager` protocol, under which the generator resumes at
its single `yield` exactly once: a clean body is followed by `commit`; a
failing body is rolled back, and when its message is conflict-classified and
a retry is still allowed the generator sleeps, loops, rolls back and yields a
second time, which the protocol converts into a `RuntimeError` instead of
re-running the body; when no retry is allowed it raises the retries-exhausted
error; a non-retryable message is re-raised unchanged. -/
def transaction (max_retries : Nat) (retry_delay : Rat) (body : Option (List Char)) :
    List TxEv × TxOutcome :=
  match body with
  | none => ([.rollback, .runWork, .commit], .ok)
  | some msg =>
    if is_retryable_error msg then
      if 1 ≤ max_retries then
        ([.rollback, .runWork, .rollback, .sleepFor (retry_delay * 2 ^ (0 : Nat)), .rollback],
         .protocolError genStopMsg)
      else ([.rollback, .runWork, .rollback], .retriesExhausted msg)
    else ([.rollback, .runWork, .rollback], .reraise msg)

/-! ## Savepoint scope (src/wormhole/transaction.py, savepoint) -/

/-- Observable events of a `savepoint` scope: cursor-executed statements,
and connection-level commit/rollback (which `savepoint` never issues). -/
inductive SpEv where
  | execStmt (sql : String)
  | connCommit
  | connRollback
deriving DecidableEq

/-- The `savepoint(name)` scope applied to a unit of work that either
completes cleanly (`none`) or raises an exception `some e`: create the
savepoint, run the work, release on success; on failure roll back to the
savepoint and re-raise the same exception. -/
def savepoint (name : String) (body : Option ε) : List SpEv × Option ε :=
  match body with
  | none =>
    ([.execStmt ("SAVEPOINT " ++ name), .execStmt ("RELEASE SAVEPOINT " ++ name)], none)
  | some e =>
    ([.execStmt ("SAVEPOINT " ++ name), .execStmt ("ROLLBACK TO SAVEPOINT " ++ name)], some e)

/-! ## Helper lemmas -/

theorem occursSub_iff_parts (pat : List Char) :
    ∀ s, occursSub pat s = true ↔ ∃ a b, s = a ++ pat ++ b := by
  intro s
  induction s with
  | nil =>
    simp only [occursSub, List.isEmpty_iff]
    constructor
    · rintro rfl
      exact ⟨[], [], rfl⟩
    · rintro ⟨a, b, h⟩
      rcases List.append_eq_nil.mp (List.append_eq_nil.mp h.symm).1 with ⟨-, h2⟩
      exact h2
  | cons c rest ih =>
    simp only [occursSub, Bool.or_eq_true, ih]
    constructor
    · rintro (hp | ⟨a, b, rfl⟩)
      · rw [List.isPrefixOf_iff_prefix] at hp
        obtain ⟨t, ht⟩ := hp
        exact ⟨[], t, by simp [← ht]⟩
      · exact ⟨c :: a, b, rfl⟩
    · rintro ⟨a, b, h⟩
      cases a with
      | nil =>
        left
        rw [List.isPrefixOf_iff_prefix]
        refine ⟨b, ?_⟩
        simpa using h.symm
      | cons x a' =>
        right
        rw [List.cons_append] at h
        injection h with h1 h2
        exact ⟨a', b, h2⟩

theorem runCalls_of_installed (resp : Nat → η) :
    ∀ (m : Nat) (s : RFState η), s.installed = true →
      runCalls resp m s = (List.replicate m .invoke, s) := by
  intro m
  induction m with
  | zero => intro s _; rfl
  | succ m ih =>
    intro s hs
    have hcall : rfCall resp s = ([.invoke], s) := by
      simp [rfCall, hs]
    show ((rfCall resp s).1 ++ (runCalls resp m (rfCall resp s).2).1,
        (runCalls resp m (rfCall resp s).2).2) = _
    rw [hcall]
    simp [ih s hs, List.replicate_succ]

theorem fetchallAux_spec (rs : List (Row α)) :
    ∀ (f i : Nat), rs.length - i ≤ f →
      fetchallAux rs f i =
        ((rs.drop i).map rowTuple, if i < rs.length then rs.length else i) := by
  intro f
  induction f with
  | zero =>
    intro i hi
    have hle : rs.length ≤ i := by omega
    simp [fetchallAux, List.drop_eq_nil_of_le hle, Nat.not_lt.mpr hle]
  | succ f ih =>
    intro i hi
    by_cases h : i < rs.length
    · have hdrop := List.drop_eq_getElem_cons (l := rs) h
      have h1 : rs.length - (i + 1) ≤ f := by omega
      have h2 : (if i + 1 < rs.length then rs.length else i + 1) = rs.length := by
        split <;> omega
      simp only [fetchallAux, if_pos h, ih (i + 1) h1, h2]
      rw [List.getD_eq_getElem rs [] h, hdrop, List.map_cons]
    · simp [fetchallAux, h, List.drop_eq_nil_of_le (Nat.not_lt.mp h)]

theorem fetchoneSeq_spec :
    ∀ (m : Nat) (c : WormholeCursor α) (rs : List (Row α)), c.results = some rs →
      (fetchoneSeq m c).1 =
        ((rs.drop c.currentIndex).take m).map (fun r => some (rowTuple r)) ++
          List.replicate (m - (rs.length - c.currentIndex)) none ∧
      (fetchoneSeq m c).2.results = some rs := by
  intro m
  induction m with
  | zero => intro c rs hc; simp [fetchoneSeq, hc]
  | succ m ih =>
    intro c rs hc
    by_cases h : c.currentIndex < rs.length
    · have hstep : fetchone c =
          (some (rowTuple (rs.getD c.currentIndex [])),
            { c with currentIndex := c.currentIndex + 1 }) := by
        simp [fetchone, hc, h]
      obtain ⟨ih1, ih2⟩ :=
        ih { c with currentIndex := c.currentIndex + 1 } rs (by simpa using hc)
      constructor
      · show (fetchone c).1 :: (fetchoneSeq m (fetchone c).2).1 = _
        rw [hstep]
        simp only [ih1]
        rw [List.getD_eq_getElem rs [] h, List.drop_eq_getElem_cons (l := rs) h,
          List.take_succ_cons, List.map_cons]
        have hrep : m + 1 - (rs.length - c.currentIndex) =
            m - (rs.length - (c.currentIndex + 1)) := by omega
        simp [hrep]
      · show (fetchoneSeq m (fetchone c).2).2.results = some rs
        rw [hstep]
        exact ih2
    · have hstep : fetchone c = (none, c) := by
        simp [fetchone, hc, h]
      obtain ⟨ih1, ih2⟩ := ih c rs hc
      constructor
      · show (fetchone c).1 :: (fetchoneSeq m (fetchone c).2).1 = _
        rw [hstep]
        simp only [ih1]
        have hd : rs.drop c.currentIndex = [] := List.drop_eq_nil_of_le (Nat.not_lt.mp h)
        have hz : rs.length - c.currentIndex = 0 := by omega
        simp [hd, hz, List.replicate_succ]
      · show (fetchoneSeq m (fetchone c).2).2.results = some rs
        rw [hstep]
        exact ih2

theorem filterMap_id_replicate_none :
    ∀ (k : Nat), (List.replicate k (none : Option β)).filterMap id = [] := by
  intro k
  induction k with
  | zero => rfl
  | succ k ih => simp [List.replicate_succ, ih]

/-! ## Claim theorems: connection stack, fresh cursor, savepoint, install cache -/

/-- C9: the connection stack is LIFO and total: `set_connection` pushes a
handle; `get_connection` returns the top of the stack (or `none` if empty)
without mutating it; `pop_connection` removes and returns the top, or returns
`none` on an empty stack without error; after pushing `A` then `B`, two pops
yield `B` then `A`, and a third pop yields `none`. -/
theorem c9_connection_stack :
    ∀ (γ : Type) (st : List γ) (c A B : γ),
      get_connection (set_connection c st) = some c ∧
      get_connection ([] : List γ) = none ∧
      pop_connection (set_connection c st) = (some c, st) ∧
      pop_connection ([] : List γ) = (none, []) ∧
      pop_connection (set_connection B (set_connection A [])) =
        (some B, set_connection A []) ∧
      pop_connection (set_connection A []) = (some A, []) := by
  intro γ st c A B
  refine ⟨?_, rfl, ?_, rfl, ?_, ?_⟩
  · simp [get_connection, set_connection]
  · simp [pop_connection, set_connection]
  · simp [pop_connection, set_connection]
  · simp [pop_connection, set_connection]

/-- C10: on a freshly constructed cursor, before any `execute`, every fetch
operation succeeds and reports absence as a value: `fetchone` and
`fetchone_dict` return `none`, `fetchall`, `fetchall_dict` (and `fetchmany`)
return an empty list, the description is `none`, and the rowcount is `-1`. -/
theorem c10_fresh_cursor :
    ∀ (α : Type),
      fetchone (initialCursor α) = (none, initialCursor α) ∧
      fetchone_dict (initialCursor α) = (none, initialCursor α) ∧
      fetchall (initialCursor α) = ([], initialCursor α) ∧
      fetchall_dict (initialCursor α) = ([], initialCursor α) ∧
      (∀ n, fetchmany (initialCursor α) n = ([], initialCursor α)) ∧
      (initialCursor α).description = none ∧
      (initialCursor α).rowcount = -1 := by
  intro α
  refine ⟨rfl, rfl, rfl, rfl, ?_, rfl, rfl⟩
  intro n
  cases n <;> rfl

/-- C8: the `savepoint(name)` scope issues a savepoint-create statement, runs
the unit of work, and on clean completion issues a release statement; on any
exception it issues a rollback-to-savepoint statement and re-raises that
exact exception unchanged; it never issues a connection-level commit or
rollback and never applies retry classification. -/
theorem c8_savepoint_scope :
    ∀ (ε : Type) (name : String) (body : Option ε),
      (body = none → savepoint name body =
        ([.execStmt ("SAVEPOINT " ++ name), .execStmt ("RELEASE SAVEPOINT " ++ name)],
          none)) ∧
      (∀ e, body = some e → savepoint name body =
        ([.execStmt ("SAVEPOINT " ++ name), .execStmt ("ROLLBACK TO SAVEPOINT " ++ name)],
          some e)) ∧
      (savepoint name body).2 = body ∧
      SpEv.connCommit ∉ (savepoint name body).1 ∧
      SpEv.connRollback ∉ (savepoint name body).1 := by
  intro ε name body
  refine ⟨?_, ?_, ?_, ?_, ?_⟩
  · rintro rfl; rfl
  · rintro e rfl; rfl
  · cases body <;> rfl
  · cases body <;> simp [savepoint]
  · cases body <;> simp [savepoint]

theorem c8_witness :
    savepoint "sp1" (some 7) =
      ([.execStmt ("SAVEPOINT " ++ "sp1"), .execStmt ("ROLLBACK TO SAVEPOINT " ++ "sp1")],
        some 7) :=
  (c8_savepoint_scope Nat "sp1" (some 7)).2.1 7 rfl

/-- C7: for a given `RemoteFunction` object, across any sequence of
invocations in one process the install RPC is issued at most once; it is
issued before the first invocation, and afterwards the installed flag stays
set, the cached handle is never replaced, and install is never issued again:
every later call contributes only invoke events and leaves the state at
`⟨some (resp 0), true, 1⟩`. -/
theorem c7_install_once :
    ∀ (η : Type) (resp : Nat → η) (m : Nat),
      ((runCalls resp m (initialRFState η)).1.countP isInstallEv ≤ 1) ∧
      (1 ≤ m → runCalls resp m (initialRFState η) =
        (.install 0 :: .invoke :: List.replicate (m - 1) .invoke,
          ⟨some (resp 0), true, 1⟩)) := by
  intro η resp m
  cases m with
  | zero =>
    exact ⟨by simp [runCalls], by omega⟩
  | succ m =>
    have hfirst : rfCall resp (initialRFState η) =
        ([.install 0, .invoke], ⟨some (resp 0), true, 1⟩) := rfl
    have hrun : runCalls resp (m + 1) (initialRFState η) =
        (.install 0 :: .invoke :: List.replicate m .invoke,
          ⟨some (resp 0), true, 1⟩) := by
      show ((rfCall resp (initialRFState η)).1 ++
          (runCalls resp m (rfCall resp (initialRFState η)).2).1,
          (runCalls resp m (rfCall resp (initialRFState η)).2).2) = _
      rw [hfirst, runCalls_of_installed resp m _ rfl]
      rfl
    constructor
    · rw [hrun]
      simp only [List.countP_cons, List.countP_nil, isInstallEv]
      have hz : (List.replicate m RFEv.invoke).countP isInstallEv = 0 := by
        rw [List.countP_eq_zero]
        intro a ha
        rw [List.eq_of_mem_replicate ha]
        simp [isInstallEv]
      simp [hz, isInstallEv]
    · intro _
      simpa using hrun

theorem c7_witness :
    runCalls (fun k => 100 + k) 3 (initialRFState Nat) =
      (.install 0 :: .invoke :: List.replicate (3 - 1) .invoke,
        ⟨some (100 + 0), true, 1⟩) :=
  (c7_install_once Nat (fun k => 100 + k) 3).2 (by omega)

/-! ## Claim theorems: error classification and the transaction scope -/

/-- C4: `_is_retryable_error` returns true exactly when the lowercased
message contains one of the five conflict markers, and for a failure whose
message is not conflict-classified the `transaction` scope rolls back and
re-raises that exact exception unchanged, with zero retries and no sleep. -/
theorem c4_error_classification :
    ∀ (msg : List Char),
      (is_retryable_error msg = true ↔
        ∃ cond ∈ retryable_conditions, ∃ a b, lowerStr msg = a ++ cond ++ b) ∧
      (is_retryable_error msg = false →
        ∀ (m : Nat) (d : Rat),
          transaction m d (some msg) =
            ([.rollback, .runWork, .rollback], .reraise msg)) := by
  intro msg
  constructor
  · rw [is_retryable_error, List.any_eq_true]
    constructor
    · rintro ⟨cond, hmem, hocc⟩
      exact ⟨cond, hmem, (occursSub_iff_parts cond (lowerStr msg)).mp hocc⟩
    · rintro ⟨cond, hmem, hparts⟩
      exact ⟨cond, hmem, (occursSub_iff_parts cond (lowerStr msg)).mpr hparts⟩
  · intro h m d
    simp [transaction, h]

theorem c4_witness :
    transaction 3 1 (some ("division by zero").toList) =
      ([.rollback, .runWork, .rollback], .reraise ("division by zero").toList) :=
  (c4_error_classification ("division by zero").toList).2 (by decide) 3 1

/-- C1: the claimed retry algorithm is the intent of `transaction` but not
its behavior: because `transaction` is a generator wrapped in
`contextlib.contextmanager` and its retry loop reaches `yield` a second
time, a unit of work whose first execution raises the conflict-classified
message `"deadlock detected"` under `max_retries = 3` leads to a single
execution of the work followed by a protocol `RuntimeError`, not to the
claimed four executions ending in the retries-exhausted error. -/
theorem c1_code_evaluation :
    transaction 3 1 (some ("deadlock detected").toList) =
      ([.rollback, .runWork, .rollback, .sleepFor ((1 : Rat) * 2 ^ (0 : Nat)), .rollback],
        .protocolError genStopMsg) ∧
    (transaction 3 1 (some ("deadlock detected").toList)).1.count .runWork = 1 ∧
    (transaction 3 1 (some ("deadlock detected").toList)).2 ≠
      .retriesExhausted ("deadlock detected").toList := by
  exact ⟨rfl, rfl, fun h => TxOutcome.noConfusion h⟩

/-! ## Cursor state lemmas -/

theorem fetchone_state (c : WormholeCursor α) :
    (fetchone c).2.results = c.results ∧
    (fetchone c).2.currentIndex = c.currentIndex + (fetchone c).1.toList.length ∧
    ∀ rs, c.results = some rs → c.currentIndex ≤ rs.length →
      (fetchone c).2.currentIndex ≤ rs.length := by
  cases hc : c.results with
  | none =>
    have h1 : fetchone c = (none, c) := by simp [fetchone, hc]
    refine ⟨by simp [h1, hc], by simp [h1], ?_⟩
    intro rs hrs
    simp at hrs
  | some rs =>
    by_cases h : c.currentIndex < rs.length
    · have h1 : fetchone c = (some (rowTuple (rs.getD c.currentIndex [])),
          { c with currentIndex := c.currentIndex + 1 }) := by
        simp [fetchone, hc, h]
      refine ⟨by simp [h1, hc], by simp [h1], ?_⟩
      intro rs' hrs' _
      injection hrs' with h2
      subst h2
      rw [h1]
      exact Nat.succ_le_of_lt h
    · have h1 : fetchone c = (none, c) := by simp [fetchone, hc, h]
      refine ⟨by simp [h1, hc], by simp [h1], ?_⟩
      intro rs' hrs' hle
      rw [h1]
      exact hle

theorem fetchmany_state :
    ∀ (n : Nat) (c : WormholeCursor α),
      (fetchmany c n).2.results = c.results ∧
      (fetchmany c n).2.currentIndex = c.currentIndex + (fetchmany c n).1.length ∧
      ∀ rs, c.results = some rs → c.currentIndex ≤ rs.length →
        (fetchmany c n).2.currentIndex ≤ rs.length := by
  intro n
  induction n with
  | zero =>
    intro c
    exact ⟨rfl, by simp [fetchmany], fun rs _ hle => by simpa [fetchmany] using hle⟩
  | succ n ih =>
    intro c
    obtain ⟨hres, hidx, hbound⟩ := fetchone_state c
    rcases hfc : fetchone c with ⟨r, c'⟩
    have hres' : c'.results = c.results := by rw [hfc] at hres; exact hres
    cases r with
    | none =>
      have hun : fetchmany c (n + 1) = ([], c') := by
        simp only [fetchmany, hfc]
      have hidx' : c'.currentIndex = c.currentIndex := by
        rw [hfc] at hidx; simpa using hidx
      refine ⟨by simp [hun, hres'], by simp [hun, hidx'], ?_⟩
      intro rs hrs hle
      simp [hun, hidx']
      omega
    | some v =>
      have hun : fetchmany c (n + 1) = (v :: (fetchmany c' n).1, (fetchmany c' n).2) := by
        simp only [fetchmany, hfc]
      have hidx' : c'.currentIndex = c.currentIndex + 1 := by
        rw [hfc] at hidx; simpa using hidx
      obtain ⟨ihres, ihidx, ihbound⟩ := ih c'
      refine ⟨by simp [hun, ihres, hres'], ?_, ?_⟩
      · simp only [hun, ihidx, hidx', List.length_cons]
        omega
      · intro rs hrs hle
        have hb : c'.currentIndex ≤ rs.length := by
          have := hbound rs hrs hle
          rw [hfc] at this
          exact this
        have := ihbound rs (by rw [hres', hrs]) hb
        simpa [hun] using this

theorem fetchall_state (c : WormholeCursor α) :
    (fetchall c).2.results = c.results ∧
    (fetchall c).2.currentIndex = c.currentIndex + (fetchall c).1.length ∧
    ∀ rs, c.results = some rs → c.currentIndex ≤ rs.length →
      (fetchall c).2.currentIndex ≤ rs.length := by
  cases hc : c.results with
  | none =>
    have h1 : fetchall c = ([], c) := by simp [fetchall, hc]
    refine ⟨by simp [h1, hc], by simp [h1], ?_⟩
    intro rs hrs
    simp at hrs
  | some rs =>
    have hspec := fetchallAux_spec rs rs.length c.currentIndex (Nat.sub_le _ _)
    have h1 : fetchall c = ((rs.drop c.currentIndex).map rowTuple,
        { c with currentIndex :=
          if c.currentIndex < rs.length then rs.length else c.currentIndex }) := by
      simp [fetchall, hc, hspec]
    refine ⟨by simp [h1, hc], ?_, ?_⟩
    · rw [h1]
      simp only [List.length_map, List.length_drop]
      split <;> omega
    · intro rs' hrs' hle
      injection hrs' with h2
      subst h2
      rw [h1]
      show (if c.currentIndex < rs.length then rs.length else c.currentIndex) ≤ rs.length
      split <;> omega

theorem fetchone_dict_state (c : WormholeCursor α) :
    (fetchone_dict c).2.results = c.results ∧
    (fetchone_dict c).2.currentIndex = c.currentIndex + (fetchone_dict c).1.toList.length ∧
    ∀ rs, c.results = some rs → c.currentIndex ≤ rs.length →
      (fetchone_dict c).2.currentIndex ≤ rs.length := by
  cases hc : c.results with
  | none =>
    have h1 : fetchone_dict c = (none, c) := by simp [fetchone_dict, hc]
    refine ⟨by simp [h1, hc], by simp [h1], ?_⟩
    intro rs hrs
    simp at hrs
  | some rs =>
    by_cases h : c.currentIndex < rs.length
    · have h1 : fetchone_dict c = (some (rs.getD c.currentIndex []),
          { c with currentIndex := c.currentIndex + 1 }) := by
        simp [fetchone_dict, hc, h]
      refine ⟨by simp [h1, hc], by simp [h1], ?_⟩
      intro rs' hrs' _
      injection hrs' with h2
      subst h2
      rw [h1]
      exact Nat.succ_le_of_lt h
    · have h1 : fetchone_dict c = (none, c) := by simp [fetchone_dict, hc, h]
      refine ⟨by simp [h1, hc], by simp [h1], ?_⟩
      intro rs' hrs' hle
      rw [h1]
      exact hle

/-! ## Claim theorems: fetch-position and fetch-order -/

/-- C3 (amended): after every `execute` the read position is 0; `fetchone`,
`fetchmany`, `fetchall` and `fetchone_dict` advance the position by exactly
the number of rows they return, while `fetchall_dict` returns the remaining
rows without touching the cursor at all; all fetch operations leave the
stored result set unchanged, and whenever the position is within the stored
result set it stays within it (so it is monotone and never exceeds the
length). -/
theorem c3_fetch_position :
    ∀ (α : Type),
      (∀ (rows : List (Row α)) (nrows : Option Int) (c : WormholeCursor α),
        (executeServer rows nrows c).currentIndex = 0) ∧
      (∀ (desc : Option (List String)) (driverRows : List (List α)) (drc : Int)
          (c : WormholeCursor α),
        (executeClient desc driverRows drc c).currentIndex = 0) ∧
      (∀ c : WormholeCursor α,
        (fetchone c).2.currentIndex = c.currentIndex + (fetchone c).1.toList.length) ∧
      (∀ (c : WormholeCursor α) (n : Nat),
        (fetchmany c n).2.currentIndex = c.currentIndex + (fetchmany c n).1.length) ∧
      (∀ c : WormholeCursor α,
        (fetchall c).2.currentIndex = c.currentIndex + (fetchall c).1.length) ∧
      (∀ c : WormholeCursor α,
        (fetchone_dict c).2.currentIndex = c.currentIndex + (fetchone_dict c).1.toList.length) ∧
      (∀ c : WormholeCursor α, (fetchall_dict c).2 = c) ∧
      (∀ (c : WormholeCursor α) (rs : List (Row α)),
        c.results = some rs → c.currentIndex ≤ rs.length →
        ((fetchone c).2.results = some rs ∧ (fetchone c).2.currentIndex ≤ rs.length) ∧
        (∀ n, (fetchmany c n).2.results = some rs ∧
          (fetchmany c n).2.currentIndex ≤ rs.length) ∧
        ((fetchall c).2.results = some rs ∧ (fetchall c).2.currentIndex ≤ rs.length) ∧
        ((fetchone_dict c).2.results = some rs ∧
          (fetchone_dict c).2.currentIndex ≤ rs.length)) := by
  intro α
  refine ⟨?_, ?_, ?_, ?_, ?_, ?_, ?_, ?_⟩
  · intro rows nrows c; rfl
  · intro desc driverRows drc c; cases desc <;> rfl
  · intro c; exact (fetchone_state c).2.1
  · intro c n; exact (fetchmany_state n c).2.1
  · intro c; exact (fetchall_state c).2.1
  · intro c; exact (fetchone_dict_state c).2.1
  · intro c
    unfold fetchall_dict
    cases hc : c.results <;> rfl
  · intro c rs hrs hle
    refine ⟨⟨?_, (fetchone_state c).2.2 rs hrs hle⟩,
      fun n => ⟨?_, (fetchmany_state n c).2.2 rs hrs hle⟩,
      ⟨?_, (fetchall_state c).2.2 rs hrs hle⟩,
      ⟨?_, (fetchone_dict_state c).2.2 rs hrs hle⟩⟩
    · rw [(fetchone_state c).1, hrs]
    · rw [(fetchmany_state n c).1, hrs]
    · rw [(fetchall_state c).1, hrs]
    · rw [(fetchone_dict_state c).1, hrs]

theorem c3_counterexample :
    (fetchall_dict (⟨some [[("a", 0)]], 1, some ["a"], 0⟩ : WormholeCursor Nat)).1.length = 1 ∧
    (fetchall_dict (⟨some [[("a", 0)]], 1, some ["a"], 0⟩ : WormholeCursor Nat)).2.currentIndex ≠
      (⟨some [[("a", 0)]], 1, some ["a"], 0⟩ : WormholeCursor Nat).currentIndex +
        (fetchall_dict (⟨some [[("a", 0)]], 1, some ["a"], 0⟩ : WormholeCursor Nat)).1.length :=
  ⟨rfl, by decide⟩

theorem c3_witness :
    ((fetchone (⟨some [[("a", 0)]], 1, some ["a"], 0⟩ : WormholeCursor Nat)).2.results =
        some [[("a", 0)]] ∧
      (fetchone (⟨some [[("a", 0)]], 1, some ["a"], 0⟩ : WormholeCursor Nat)).2.currentIndex ≤
        [[("a", (0 : Nat))]].length) ∧
    (∀ n, (fetchmany (⟨some [[("a", 0)]], 1, some ["a"], 0⟩ : WormholeCursor Nat) n).2.results =
        some [[("a", 0)]] ∧
      (fetchmany (⟨some [[("a", 0)]], 1, some ["a"], 0⟩ : WormholeCursor Nat) n).2.currentIndex ≤
        [[("a", (0 : Nat))]].length) ∧
    ((fetchall (⟨some [[("a", 0)]], 1, some ["a"], 0⟩ : WormholeCursor Nat)).2.results =
        some [[("a", 0)]] ∧
      (fetchall (⟨some [[("a", 0)]], 1, some ["a"], 0⟩ : WormholeCursor Nat)).2.currentIndex ≤
        [[("a", (0 : Nat))]].length) ∧
    ((fetchone_dict (⟨some [[("a", 0)]], 1, some ["a"], 0⟩ : WormholeCursor Nat)).2.results =
        some [[("a", 0)]] ∧
      (fetchone_dict (⟨some [[("a", 0)]], 1, some ["a"], 0⟩ : WormholeCursor Nat)).2.currentIndex ≤
        [[("a", (0 : Nat))]].length) :=
  ((c3_fetch_position Nat).2.2.2.2.2.2.2 _ [[("a", 0)]] rfl (by decide))

theorem fetchall_eq (c : WormholeCursor α) (rs : List (Row α)) (hc : c.results = some rs) :
    fetchall c = ((rs.drop c.currentIndex).map rowTuple,
      { c with currentIndex :=
        if c.currentIndex < rs.length then rs.length else c.currentIndex }) := by
  have hspec := fetchallAux_spec rs rs.length c.currentIndex (Nat.sub_le _ _)
  simp [fetchall, hc, hspec]

theorem filterMap_id_map_some (f : β → δ) :
    ∀ l : List β, (l.map (fun r => some (f r))).filterMap id = l.map f := by
  intro l
  induction l with
  | nil => rfl
  | cons x t ih => simp [ih]

/-- C6: `fetchall` returns all remaining rows as positional tuples in result
order; a sequence of `m` `fetchone` calls after an `execute` returns the
first `min(m, n)` rows in order — the same prefix a single `fetchall` would
yield — then `none` for every further call, and over-fetching never fails:
it just returns `none` entries. -/
theorem c6_fetch_order :
    ∀ (α : Type) (c : WormholeCursor α) (rs : List (Row α)),
      c.results = some rs → c.currentIndex = 0 →
      (fetchall c).1 = rs.map rowTuple ∧
      (∀ m, (fetchoneSeq m c).1 =
        (rs.take m).map (fun r => some (rowTuple r)) ++
          List.replicate (m - rs.length) none) ∧
      (∀ m, (fetchoneSeq m c).1.filterMap id = ((fetchall c).1).take m) ∧
      (fetchone (fetchall c).2).1 = none := by
  intro α c rs hres hidx
  have hall : (fetchall c).1 = rs.map rowTuple := by
    rw [fetchall_eq c rs hres, hidx]
    simp
  have hseq : ∀ m, (fetchoneSeq m c).1 =
      (rs.take m).map (fun r => some (rowTuple r)) ++
        List.replicate (m - rs.length) none := by
    intro m
    have := (fetchoneSeq_spec m c rs hres).1
    rw [hidx] at this
    simpa using this
  refine ⟨hall, hseq, ?_, ?_⟩
  · intro m
    rw [hseq m, hall, List.filterMap_append, filterMap_id_map_some,
      filterMap_id_replicate_none, List.append_nil, List.map_take]
  · rw [fetchall_eq c rs hres, hidx]
    by_cases hl : (0 : Nat) < rs.length
    · simp [fetchone, hres, hl]
    · simp [fetchone, hres, hl]

theorem c6_witness :
    (fetchall (⟨some [[("a", 1)], [("b", 2)]], 2, some ["v"], 0⟩ : WormholeCursor Nat)).1 =
        [[("a", 1)], [("b", 2)]].map rowTuple ∧
    (∀ m, (fetchoneSeq m
        (⟨some [[("a", 1)], [("b", 2)]], 2, some ["v"], 0⟩ : WormholeCursor Nat)).1 =
      ([[("a", 1)], [("b", 2)]].take m).map (fun r => some (rowTuple r)) ++
        List.replicate (m - [[("a", (1 : Nat))], [("b", 2)]].length) none) ∧
    (∀ m, (fetchoneSeq m
        (⟨some [[("a", 1)], [("b", 2)]], 2, some ["v"], 0⟩ : WormholeCursor Nat)).1.filterMap id =
      ((fetchall (⟨some [[("a", 1)], [("b", 2)]], 2, some ["v"], 0⟩ :
        WormholeCursor Nat)).1).take m) ∧
    (fetchone (fetchall (⟨some [[("a", 1)], [("b", 2)]], 2, some ["v"], 0⟩ :
        WormholeCursor Nat)).2).1 = none :=
  c6_fetch_order Nat _ [[("a", 1)], [("b", 2)]] rfl rfl

/-! ## Decimal digit lemmas -/

theorem digitChar_toNat : ∀ d, d < 10 → (Nat.digitChar d).toNat = 48 + d := by decide

theorem digitChar_isDigit : ∀ d, d < 10 → (Nat.digitChar d).isDigit = true := by decide

theorem digitChar_inj : ∀ d, d < 10 → ∀ e, e < 10 →
    Nat.digitChar d = Nat.digitChar e → d = e := by decide

theorem isDigit_ne_pct {c : Char} (h : c.isDigit = true) : c ≠ '%' := by
  rintro rfl
  simp [Char.isDigit] at h

theorem isDigit_ne_dollar {c : Char} (h : c.isDigit = true) : c ≠ '$' := by
  rintro rfl
  simp [Char.isDigit] at h

theorem isDigit_ne_s {c : Char} (h : c.isDigit = true) : c ≠ 's' := by
  rintro rfl
  simp [Char.isDigit] at h

theorem natDigitsAux_all_digit :
    ∀ (f n : Nat), n ≤ f → ∀ c ∈ natDigitsAux (f + 1) n, c.isDigit = true := by
  intro f
  induction f with
  | zero =>
    intro n hn c hc
    interval_cases n
    simp [natDigitsAux] at hc
    subst hc
    decide
  | succ f ih =>
    intro n hn c hc
    by_cases h : n < 10
    · simp [natDigitsAux, h] at hc
      subst hc
      exact digitChar_isDigit n h
    · rw [natDigitsAux, if_neg h] at hc
      rcases List.mem_append.mp hc with hc1 | hc2
      · exact ih (n / 10) (by omega) c hc1
      · rw [List.mem_singleton] at hc2
        subst hc2
        exact digitChar_isDigit _ (Nat.mod_lt _ (by omega))

theorem natDigits_all_digit (n : Nat) : ∀ c ∈ natDigits n, c.isDigit = true :=
  natDigitsAux_all_digit n n (le_refl n)

theorem natDigits_lt10 {n : Nat} (h : n < 10) : natDigits n = [Nat.digitChar n] := by
  simp [natDigits, natDigitsAux, h]

theorem digitsValFrom :
    ∀ (b : List Char) (init : Nat),
      b.foldl (fun a c => 10 * a + (c.toNat - 48)) init =
        init * 10 ^ b.length + digitsVal b := by
  intro b
  induction b with
  | nil => intro init; simp [digitsVal]
  | cons c t ih =>
    intro init
    show t.foldl _ (10 * init + (c.toNat - 48)) = _
    rw [ih (10 * init + (c.toNat - 48))]
    have hv : digitsVal (c :: t) = (c.toNat - 48) * 10 ^ t.length + digitsVal t := by
      show t.foldl _ (10 * 0 + (c.toNat - 48)) = _
      rw [ih (10 * 0 + (c.toNat - 48))]
      ring
    rw [hv, List.length_cons]
    ring

theorem digitsVal_append (a b : List Char) :
    digitsVal (a ++ b) = digitsVal a * 10 ^ b.length + digitsVal b := by
  rw [digitsVal, List.foldl_append, digitsValFrom]
  rfl

theorem natDigitsAux_val :
    ∀ (f n : Nat), n ≤ f → digitsVal (natDigitsAux (f + 1) n) = n := by
  intro f
  induction f with
  | zero =>
    intro n hn
    interval_cases n
    decide
  | succ f ih =>
    intro n hn
    by_cases h : n < 10
    · rw [natDigitsAux, if_pos h]
      show (10 * 0 + ((Nat.digitChar n).toNat - 48)) = n
      rw [digitChar_toNat n h]
      omega
    · rw [natDigitsAux, if_neg h, digitsVal_append, ih (n / 10) (by omega)]
      have hm : digitsVal [Nat.digitChar (n % 10)] = n % 10 := by
        show 10 * 0 + ((Nat.digitChar (n % 10)).toNat - 48) = n % 10
        rw [digitChar_toNat _ (Nat.mod_lt _ (by omega))]
        omega
      rw [hm]
      simp
      omega

theorem natDigits_val (n : Nat) : digitsVal (natDigits n) = n :=
  natDigitsAux_val n n (le_refl n)

theorem natDigits_ne_nil (n : Nat) : natDigits n ≠ [] := by
  intro h
  have := natDigits_val n
  rw [h] at this
  by_cases h10 : n < 10
  · rw [natDigits_lt10 h10] at h
    cases h
  · simp [digitsVal] at this
    omega

theorem natDigits_pref_le {j i : Nat} (h : natDigits j <+: natDigits i) : j ≤ i := by
  obtain ⟨r, hr⟩ := h
  have hv : i = j * 10 ^ r.length + digitsVal r := by
    rw [← natDigits_val i, ← hr, digitsVal_append, natDigits_val]
  have hp : 1 ≤ 10 ^ r.length := Nat.one_le_two_pow.trans (Nat.pow_le_pow_left (by omega) _)
  nlinarith [Nat.zero_le (digitsVal r)]

/-! ## replaceAll lemmas -/

theorem isPrefixOf_eq_false_of_not {l1 l2 : List Char} (h : ¬ l1 <+: l2) :
    l1.isPrefixOf l2 = false := by
  rw [← Bool.not_eq_true, List.isPrefixOf_iff_prefix]
  exact h

theorem pair_prefix_iff (x y c : Char) (l : List Char) :
    [x, y] <+: (c :: l) ↔ x = c ∧ ∃ l', l = y :: l' := by
  constructor
  · intro h
    rw [List.cons_prefix_cons] at h
    obtain ⟨hx, h2⟩ := h
    cases l with
    | nil =>
      obtain ⟨t, ht⟩ := h2
      cases ht
    | cons e l' =>
      rw [List.cons_prefix_cons] at h2
      exact ⟨hx, l', by rw [h2.1]⟩
  · rintro ⟨rfl, l', rfl⟩
    exact ⟨l', rfl⟩

theorem replaceAllAux_fuel (pat repl : List Char) :
    ∀ (L : Nat) (s : List Char), s.length ≤ L → ∀ f g, s.length ≤ f → s.length ≤ g →
      replaceAllAux pat repl f s = replaceAllAux pat repl g s := by
  intro L
  induction L with
  | zero =>
    intro s hs f g hf hg
    have hnil : s = [] := List.length_eq_zero.mp (by omega)
    subst hnil
    cases f <;> cases g <;> rfl
  | succ L ih =>
    intro s hs f g hf hg
    cases s with
    | nil => cases f <;> cases g <;> rfl
    | cons c rest =>
      obtain ⟨f', rfl⟩ : ∃ f', f = f' + 1 := ⟨f - 1, by simp at hf; omega⟩
      obtain ⟨g', rfl⟩ : ∃ g', g = g' + 1 := ⟨g - 1, by simp at hg; omega⟩
      have hrest : rest.length ≤ L := by simp at hs; omega
      have hrf : rest.length ≤ f' := by simp at hf; omega
      have hrg : rest.length ≤ g' := by simp at hg; omega
      show (if pat.isPrefixOf (c :: rest) && !pat.isEmpty then
          repl ++ replaceAllAux pat repl f' (rest.drop (pat.length - 1))
        else c :: replaceAllAux pat repl f' rest) =
        (if pat.isPrefixOf (c :: rest) && !pat.isEmpty then
          repl ++ replaceAllAux pat repl g' (rest.drop (pat.length - 1))
        else c :: replaceAllAux pat repl g' rest)
      split
      · have hd : (rest.drop (pat.length - 1)).length ≤ L := by
          rw [List.length_drop]; omega
        rw [ih (rest.drop (pat.length - 1)) hd f' g'
          (by rw [List.length_drop]; omega) (by rw [List.length_drop]; omega)]
      · rw [ih rest hrest f' g' hrf hrg]

theorem replaceAll_eq_aux (pat repl : List Char) (s : List Char) (f : Nat)
    (hf : s.length ≤ f) : replaceAllAux pat repl f s = replaceAll pat repl s :=
  replaceAllAux_fuel pat repl s.length s (le_refl _) f s.length hf (le_refl _)

theorem replaceAll_nil (pat repl : List Char) : replaceAll pat repl [] = [] := rfl

theorem replaceAll_cons_neg {pat : List Char} (repl : List Char) {c : Char}
    {rest : List Char} (h : ¬ pat <+: (c :: rest)) :
    replaceAll pat repl (c :: rest) = c :: replaceAll pat repl rest := by
  show (if pat.isPrefixOf (c :: rest) && !pat.isEmpty then
      repl ++ replaceAllAux pat repl rest.length (rest.drop (pat.length - 1))
    else c :: replaceAllAux pat repl rest.length rest) = _
  rw [isPrefixOf_eq_false_of_not h]
  simp [replaceAll]

theorem replaceAll_cons_pat {p : Char} {ps : List Char} (repl t : List Char) :
    replaceAll (p :: ps) repl ((p :: ps) ++ t) = repl ++ replaceAll (p :: ps) repl t := by
  show (if (p :: ps).isPrefixOf (p :: (ps ++ t)) && !(p :: ps).isEmpty then
      repl ++ replaceAllAux (p :: ps) repl (ps ++ t).length
        ((ps ++ t).drop ((p :: ps).length - 1))
    else p :: replaceAllAux (p :: ps) repl (ps ++ t).length (ps ++ t)) = _
  have hpre : (p :: ps).isPrefixOf (p :: (ps ++ t)) = true := by
    rw [List.isPrefixOf_iff_prefix]
    exact (List.prefix_append (p :: ps) t).trans (by rw [List.cons_append])
  rw [hpre]
  have hdrop : (ps ++ t).drop ((p :: ps).length - 1) = t := by
    simp only [List.length_cons, Nat.add_sub_cancel]
    exact List.drop_left ps t
  simp only [List.isEmpty_cons, Bool.not_false, Bool.and_true, if_pos, hdrop]
  rw [replaceAll_eq_aux (p :: ps) repl t (ps ++ t).length (by simp)]

theorem replaceAll_skip (pat repl : List Char) :
    ∀ (a t : List Char),
      (∀ c u, (c :: u) <:+ a → ¬ pat <+: (c :: (u ++ t))) →
      replaceAll pat repl (a ++ t) = a ++ replaceAll pat repl t := by
  intro a
  induction a with
  | nil => intro t _; rfl
  | cons c a' ih =>
    intro t hno
    have h0 : ¬ pat <+: (c :: (a' ++ t)) := hno c a' (List.suffix_refl _)
    rw [List.cons_append, replaceAll_cons_neg repl h0,
      ih t (fun d u hsuf => hno d u (hsuf.trans (List.suffix_cons c a')))]
    rfl

theorem replaceAll_of_not_occurs {pat : List Char} (repl : List Char) :
    ∀ {s : List Char}, occursSub pat s = false → replaceAll pat repl s = s := by
  intro s
  induction s with
  | nil => intro _; rfl
  | cons c rest ih =>
    intro h
    rw [occursSub, Bool.or_eq_false_iff] at h
    rw [replaceAll_cons_neg repl (fun hp =>
      by rw [List.isPrefixOf_iff_prefix.mpr hp] at h; exact absurd h.1 (by simp)), ih h.2]

theorem dollarToPct_step (i : Nat) (s : List Char) :
    dollarToPct (i + 1) s = dollarToPct i (replaceAll (dollarMarker (i + 1)) pctS s) := by
  by_cases h : occursSub (dollarMarker (i + 1)) s = true
  · simp [dollarToPct, h]
  · rw [Bool.not_eq_true] at h
    simp [dollarToPct, h, replaceAll_of_not_occurs pctS h]

/-! ## In-engine translation loop lemmas -/

theorem toDollarAux_succ (f : Nat) (s : List Char) (n : Nat) :
    toDollarAux (f + 1) s n =
      if occursSub pctS s then toDollarAux f (replaceFirst pctS (dollarMarker n) s) (n + 1)
      else s := rfl

theorem dollarMarker_no_pct (n : Nat) : ∀ c ∈ dollarMarker n, c ≠ '%' := by
  intro c hc
  rcases List.mem_cons.mp hc with rfl | hmem
  · decide
  · exact isDigit_ne_pct (natDigits_all_digit n c hmem)

theorem occursSub_pctS_append {a : List Char} (ha : ∀ c ∈ a, c ≠ '%') (t : List Char) :
    occursSub pctS (a ++ t) = occursSub pctS t := by
  induction a with
  | nil => rfl
  | cons x a' ih =>
    rw [List.cons_append, occursSub]
    have hx : pctS.isPrefixOf (x :: (a' ++ t)) = false :=
      isPrefixOf_eq_false_of_not (fun hp => by
        obtain ⟨hxeq, -⟩ := (pair_prefix_iff '%' 's' x _).mp hp
        exact ha x (List.mem_cons_self x a') hxeq.symm)
    rw [hx, Bool.false_or, ih (fun c hc => ha c (List.mem_cons_of_mem x hc))]

theorem replaceFirst_pctS_append {a : List Char} (ha : ∀ c ∈ a, c ≠ '%')
    (r t : List Char) : replaceFirst pctS r (a ++ t) = a ++ replaceFirst pctS r t := by
  induction a with
  | nil => rfl
  | cons x a' ih =>
    have hx : pctS.isPrefixOf (x :: (a' ++ t)) = false :=
      isPrefixOf_eq_false_of_not (fun hp => by
        obtain ⟨hxeq, -⟩ := (pair_prefix_iff '%' 's' x _).mp hp
        exact ha x (List.mem_cons_self x a') hxeq.symm)
    rw [List.cons_append]
    show (if pctS.isPrefixOf (x :: (a' ++ t)) then r ++ (a' ++ t).drop (pctS.length - 1)
      else x :: replaceFirst pctS r (a' ++ t)) = _
    rw [hx]
    simp only [Bool.false_eq_true, if_false, List.cons_append]
    rw [ih (fun c hc => ha c (List.mem_cons_of_mem x hc))]

theorem toDollarAux_pctfree_append {a : List Char} (ha : ∀ c ∈ a, c ≠ '%') :
    ∀ (f : Nat) (t : List Char) (n : Nat),
      toDollarAux f (a ++ t) n = a ++ toDollarAux f t n := by
  intro f
  induction f with
  | zero => intro t n; rfl
  | succ f ih =>
    intro t n
    rw [toDollarAux_succ, toDollarAux_succ, occursSub_pctS_append ha t]
    cases hocc : occursSub pctS t with
    | false => simp
    | true =>
      simp only [if_true]
      rw [replaceFirst_pctS_append ha (dollarMarker n) t, ih]

theorem toDollarAux_cons_skip :
    ∀ (f : Nat) (c : Char) (t : List Char) (n : Nat),
      (c ≠ '%' ∨ ∀ h, t.head? = some h → h ≠ 's') →
      toDollarAux f (c :: t) n = c :: toDollarAux f t n := by
  intro f
  induction f with
  | zero => intro c t n _; rfl
  | succ f ih =>
    intro c t n hc
    have hnp : ¬ pctS <+: (c :: t) := by
      intro hp
      obtain ⟨h1, l', h2⟩ := (pair_prefix_iff '%' 's' c t).mp hp
      rcases hc with hc | hc
      · exact hc h1.symm
      · exact hc 's' (by rw [h2]; rfl) rfl
    have hnpb : pctS.isPrefixOf (c :: t) = false := isPrefixOf_eq_false_of_not hnp
    rw [toDollarAux_succ, toDollarAux_succ]
    rw [show occursSub pctS (c :: t) = occursSub pctS t by
      rw [occursSub, hnpb, Bool.false_or]]
    cases hocc : occursSub pctS t with
    | false => simp
    | true =>
      simp only [if_true]
      have hrf : replaceFirst pctS (dollarMarker n) (c :: t) =
          c :: replaceFirst pctS (dollarMarker n) t := by
        show (if pctS.isPrefixOf (c :: t) then dollarMarker n ++ t.drop (pctS.length - 1)
          else c :: replaceFirst pctS (dollarMarker n) t) = _
        rw [hnpb]
        simp
      rw [hrf]
      apply ih
      rcases hc with hc | hc
      · exact Or.inl hc
      · right
        intro h hh
        cases t with
        | nil => simp [occursSub, pctS] at hocc
        | cons d t' =>
          by_cases hd : pctS.isPrefixOf (d :: t') = true
          · have : replaceFirst pctS (dollarMarker n) (d :: t') =
                dollarMarker n ++ t'.drop (pctS.length - 1) := by
              show (if pctS.isPrefixOf (d :: t') then
                  dollarMarker n ++ t'.drop (pctS.length - 1)
                else d :: replaceFirst pctS (dollarMarker n) t') = _
              rw [hd]
              simp
            rw [this] at hh
            have : h = '$' := by
              simp [dollarMarker] at hh
              exact hh.symm
            subst this
            decide
          · have : replaceFirst pctS (dollarMarker n) (d :: t') =
                d :: replaceFirst pctS (dollarMarker n) t' := by
              show (if pctS.isPrefixOf (d :: t') then
                  dollarMarker n ++ t'.drop (pctS.length - 1)
                else d :: replaceFirst pctS (dollarMarker n) t') = _
              rw [Bool.not_eq_true] at hd
              rw [hd]
              simp
            rw [this] at hh
            injection hh with hh
            subst hh
            exact hc _ rfl

theorem countPct_cons (c : Char) (t : List Char) :
    countPct (c :: t) = countPct t + if c == '%' then 1 else 0 :=
  List.countP_cons _ _ _

theorem toDollarAux_eq_scan :
    ∀ (L : Nat) (s : List Char), s.length ≤ L → ∀ (f n : Nat), countPct s ≤ f →
      toDollarAux f s n = scanTranslate s n := by
  intro L
  induction L with
  | zero =>
    intro s hs f n _
    have hnil : s = [] := List.length_eq_zero.mp (by omega)
    subst hnil
    cases f <;> rfl
  | succ L ih =>
    intro s hs f n hcp
    rcases s with _ | ⟨c, _ | ⟨d, rest⟩⟩
    · cases f <;> rfl
    · have hocc : occursSub pctS [c] = false := by
        simp [occursSub, pctS, List.isPrefixOf]
      cases f with
      | zero => rfl
      | succ f => rw [toDollarAux_succ, hocc]; simp; rfl
    · by_cases hm : c = '%' ∧ d = 's'
      · obtain ⟨rfl, rfl⟩ := hm
        have hcp2 : countPct rest + 1 ≤ f := by
          rw [countPct_cons, countPct_cons] at hcp
          simp at hcp
          omega
        obtain ⟨f', rfl⟩ : ∃ f', f = f' + 1 := ⟨f - 1, by omega⟩
        rw [toDollarAux_succ]
        have hocc : occursSub pctS ('%' :: 's' :: rest) = true := by
          rw [occursSub, Bool.or_eq_true]
          left
          simp [pctS, List.isPrefixOf]
        rw [hocc]
        simp only [if_true]
        have hrf : replaceFirst pctS (dollarMarker n) ('%' :: 's' :: rest) =
            dollarMarker n ++ rest := by
          show (if pctS.isPrefixOf ('%' :: 's' :: rest) then
              dollarMarker n ++ ('s' :: rest).drop (pctS.length - 1)
            else '%' :: replaceFirst pctS (dollarMarker n) ('s' :: rest)) = _
          have : pctS.isPrefixOf ('%' :: 's' :: rest) = true := by
            simp [pctS, List.isPrefixOf]
          rw [this]
          simp [pctS]
        rw [hrf, toDollarAux_pctfree_append (dollarMarker_no_pct n) f' rest (n + 1),
          ih rest (by simp at hs; omega) f' (n + 1) (by omega)]
        show dollarMarker n ++ scanTranslate rest (n + 1) =
          scanTranslate ('%' :: 's' :: rest) n
        rw [scanTranslate]
        simp
      · have hcset : c ≠ '%' ∨ ∀ h, (d :: rest).head? = some h → h ≠ 's' := by
          by_cases hcq : c = '%'
          · right
            intro h hh
            injection hh with hh
            subst hh
            intro hds
            exact hm ⟨hcq, hds⟩
          · left; exact hcq
        rw [toDollarAux_cons_skip f c (d :: rest) n hcset]
        have hcpd : countPct (d :: rest) ≤ f := by
          rw [countPct_cons] at hcp
          omega
        rw [ih (d :: rest) (by simp at hs ⊢; omega) f n hcpd]
        show c :: scanTranslate (d :: rest) n = scanTranslate (c :: d :: rest) n
        rw [scanTranslate, if_neg hm]

/-! ## Inverse translation lemmas over mixed renderings -/

theorem noDollarDigit_tail {c : Char} {t : List Char}
    (h : noDollarDigit (c :: t) = true) : noDollarDigit t = true := by
  cases t with
  | nil => rfl
  | cons d r =>
    have h2 : (!(c == '$' && d.isDigit) && noDollarDigit (d :: r)) = true := h
    rw [Bool.and_eq_true] at h2
    exact h2.2

theorem noDollarDigit_head {c d : Char} {t : List Char}
    (h : noDollarDigit (c :: d :: t) = true) (hc : c = '$') : d.isDigit = false := by
  subst hc
  have h2 : (!(('$' : Char) == '$' && d.isDigit) && noDollarDigit (d :: t)) = true := h
  rw [Bool.and_eq_true] at h2
  have h3 := h2.1
  simp at h3
  exact h3

theorem mixedRender_zero :
    ∀ (L : Nat) (s : List Char), s.length ≤ L → ∀ n, 1 ≤ n → mixedRender 0 s n = s := by
  intro L
  induction L with
  | zero =>
    intro s hs n hn
    have hnil : s = [] := List.length_eq_zero.mp (by omega)
    subst hnil
    rfl
  | succ L ih =>
    intro s hs n hn
    rcases s with _ | ⟨c, _ | ⟨d, rest⟩⟩
    · rfl
    · rfl
    · by_cases hm : c = '%' ∧ d = 's'
      · obtain ⟨rfl, rfl⟩ := hm
        show (if ('%' : Char) = '%' ∧ ('s' : Char) = 's' then
            (if n ≤ 0 then dollarMarker n else pctS) ++ mixedRender 0 rest (n + 1)
          else '%' :: mixedRender 0 ('s' :: rest) n) = '%' :: 's' :: rest
        rw [if_pos ⟨rfl, rfl⟩, if_neg (by omega),
          ih rest (by simp at hs; omega) (n + 1) (by omega)]
        rfl
      · show (if c = '%' ∧ d = 's' then
            (if n ≤ 0 then dollarMarker n else pctS) ++ mixedRender 0 rest (n + 1)
          else c :: mixedRender 0 (d :: rest) n) = c :: d :: rest
        rw [if_neg hm, ih (d :: rest) (by simp at hs ⊢; omega) n hn]

theorem markerCount_pair (rest : List Char) :
    markerCount ('%' :: 's' :: rest) = markerCount rest + 1 := by
  show (if ('%' : Char) = '%' ∧ ('s' : Char) = 's' then markerCount rest + 1
    else markerCount ('s' :: rest)) = _
  rw [if_pos ⟨rfl, rfl⟩]

theorem markerCount_skip {c d : Char} (rest : List Char) (hm : ¬(c = '%' ∧ d = 's')) :
    markerCount (c :: d :: rest) = markerCount (d :: rest) := by
  show (if c = '%' ∧ d = 's' then markerCount rest + 1
    else markerCount (d :: rest)) = _
  rw [if_neg hm]

theorem mixedRender_all :
    ∀ (L : Nat) (s : List Char), s.length ≤ L → ∀ (n j : Nat),
      n + markerCount s ≤ j + 1 → mixedRender j s n = scanTranslate s n := by
  intro L
  induction L with
  | zero =>
    intro s hs n j _
    have hnil : s = [] := List.length_eq_zero.mp (by omega)
    subst hnil
    rfl
  | succ L ih =>
    intro s hs n j hcount
    rcases s with _ | ⟨c, _ | ⟨d, rest⟩⟩
    · rfl
    · rfl
    · by_cases hm : c = '%' ∧ d = 's'
      · obtain ⟨rfl, rfl⟩ := hm
        rw [markerCount_pair] at hcount
        show (if ('%' : Char) = '%' ∧ ('s' : Char) = 's' then
            (if n ≤ j then dollarMarker n else pctS) ++ mixedRender j rest (n + 1)
          else '%' :: mixedRender j ('s' :: rest) n) =
          (if ('%' : Char) = '%' ∧ ('s' : Char) = 's' then
            dollarMarker n ++ scanTranslate rest (n + 1)
          else '%' :: scanTranslate ('s' :: rest) n)
        rw [if_pos (⟨rfl, rfl⟩ : ('%' : Char) = '%' ∧ ('s' : Char) = 's'),
          if_pos (show n ≤ j by omega),
          if_pos (⟨rfl, rfl⟩ : ('%' : Char) = '%' ∧ ('s' : Char) = 's'),
          ih rest (by simp at hs; omega) (n + 1) j (by omega)]
      · rw [markerCount_skip rest hm] at hcount
        show (if c = '%' ∧ d = 's' then
            (if n ≤ j then dollarMarker n else pctS) ++ mixedRender j rest (n + 1)
          else c :: mixedRender j (d :: rest) n) =
          (if c = '%' ∧ d = 's' then dollarMarker n ++ scanTranslate rest (n + 1)
          else c :: scanTranslate (d :: rest) n)
        rw [if_neg hm, if_neg hm, ih (d :: rest) (by simp at hs ⊢; omega) n j hcount]

theorem mixedRender_head_nodigit (j n : Nat) (d : Char) (rest : List Char)
    (hd : d.isDigit = false) :
    ∀ c', (mixedRender j (d :: rest) n).head? = some c' → c'.isDigit = false := by
  intro c' hc'
  cases rest with
  | nil =>
    have h1 : mixedRender j [d] n = [d] := rfl
    rw [h1] at hc'
    injection hc' with hc'
    subst hc'
    exact hd
  | cons e r =>
    by_cases hm : d = '%' ∧ e = 's'
    · obtain ⟨rfl, rfl⟩ := hm
      have h1 : mixedRender j ('%' :: 's' :: r) n =
          (if n ≤ j then dollarMarker n else pctS) ++ mixedRender j r (n + 1) := by
        show (if ('%' : Char) = '%' ∧ ('s' : Char) = 's' then
            (if n ≤ j then dollarMarker n else pctS) ++ mixedRender j r (n + 1)
          else '%' :: mixedRender j ('s' :: r) n) = _
        rw [if_pos ⟨rfl, rfl⟩]
      rw [h1] at hc'
      by_cases hnj : n ≤ j
      · rw [if_pos hnj] at hc'
        have h2 : c' = '$' := by
          simp [dollarMarker] at hc'
          exact hc'.symm
        subst h2
        decide
      · rw [if_neg hnj] at hc'
        have h2 : c' = '%' := by
          simp [pctS] at hc'
          exact hc'.symm
        subst h2
        decide
    · have h1 : mixedRender j (d :: e :: r) n = d :: mixedRender j (e :: r) n := by
        show (if d = '%' ∧ e = 's' then
            (if n ≤ j then dollarMarker n else pctS) ++ mixedRender j r (n + 1)
          else d :: mixedRender j (e :: r) n) = _
        rw [if_neg hm]
      rw [h1] at hc'
      injection hc' with hc'
      subst hc'
      exact hd

theorem mixedRender_step :
    ∀ (L : Nat) (s : List Char), s.length ≤ L → ∀ (n j : Nat), 1 ≤ n → j + 1 ≤ 9 →
      noDollarDigit s = true →
      replaceAll (dollarMarker (j + 1)) pctS (mixedRender (j + 1) s n) =
        mixedRender j s n := by
  intro L
  induction L with
  | zero =>
    intro s hs n j _ _ _
    have hnil : s = [] := List.length_eq_zero.mp (by omega)
    subst hnil
    rfl
  | succ L ih =>
    intro s hs n j hn hj hnd
    have hdm : dollarMarker (j + 1) = ['$', Nat.digitChar (j + 1)] := by
      rw [dollarMarker, natDigits_lt10 (by omega)]
    rcases s with _ | ⟨c, _ | ⟨d, rest⟩⟩
    · rfl
    · have h1 : mixedRender (j + 1) [c] n = [c] := rfl
      have h2 : mixedRender j [c] n = [c] := rfl
      rw [h1, h2, replaceAll_cons_neg pctS ?_, replaceAll_nil]
      rw [hdm]
      intro hpre
      obtain ⟨-, l', hl⟩ := (pair_prefix_iff '$' (Nat.digitChar (j + 1)) c []).mp hpre
      cases hl
    · by_cases hm : c = '%' ∧ d = 's'
      · obtain ⟨rfl, rfl⟩ := hm
        have hnd2 : noDollarDigit rest = true := noDollarDigit_tail (noDollarDigit_tail hnd)
        have hmx1 : mixedRender (j + 1) ('%' :: 's' :: rest) n =
            (if n ≤ j + 1 then dollarMarker n else pctS) ++ mixedRender (j + 1) rest (n + 1) := by
          show (if ('%' : Char) = '%' ∧ ('s' : Char) = 's' then
              (if n ≤ j + 1 then dollarMarker n else pctS) ++ mixedRender (j + 1) rest (n + 1)
            else '%' :: mixedRender (j + 1) ('s' :: rest) n) = _
          rw [if_pos ⟨rfl, rfl⟩]
        have hmx2 : mixedRender j ('%' :: 's' :: rest) n =
            (if n ≤ j then dollarMarker n else pctS) ++ mixedRender j rest (n + 1) := by
          show (if ('%' : Char) = '%' ∧ ('s' : Char) = 's' then
              (if n ≤ j then dollarMarker n else pctS) ++ mixedRender j rest (n + 1)
            else '%' :: mixedRender j ('s' :: rest) n) = _
          rw [if_pos ⟨rfl, rfl⟩]
        rw [hmx1, hmx2]
        have hrec := ih rest (by simp at hs; omega) (n + 1) j (by omega) hj hnd2
        by_cases h1 : n ≤ j + 1
        · by_cases h2 : n = j + 1
          · rw [if_pos h1, if_neg (by omega)]
            rw [h2] at hrec ⊢
            have hpat : dollarMarker (j + 1) = '$' :: natDigits (j + 1) := rfl
            rw [hpat, replaceAll_cons_pat, ← hpat, hrec]
          · rw [if_pos h1, if_pos (by omega)]
            have hdn : dollarMarker n = ['$', Nat.digitChar n] := by
              rw [dollarMarker, natDigits_lt10 (by omega)]
            rw [hdn, replaceAll_skip _ _ _ _ ?_, hrec]
            intro cc u hsuf hpre
            rw [hdm] at hpre
            obtain ⟨hcc, l', hl⟩ :=
              (pair_prefix_iff '$' (Nat.digitChar (j + 1)) cc _).mp hpre
            rcases List.suffix_cons_iff.mp hsuf with heq | hsuf2
            · injection heq with he1 he2
              subst he2
              rw [List.cons_append] at hl
              injection hl with h3 h4
              exact h2 (digitChar_inj n (by omega) (j + 1) (by omega) h3)
            · rcases List.suffix_cons_iff.mp hsuf2 with heq | hsuf3
              · injection heq with he1 he2
                subst he1
                exact isDigit_ne_dollar (digitChar_isDigit n (by omega)) hcc.symm
              · simp at hsuf3
        · rw [if_neg h1, if_neg (by omega)]
          rw [show (pctS : List Char) = ['%', 's'] from rfl,
            replaceAll_skip _ _ _ _ ?_,
            show (['%', 's'] : List Char) = pctS from rfl, hrec]
          intro cc u hsuf hpre
          rw [hdm] at hpre
          obtain ⟨hcc, -⟩ := (pair_prefix_iff '$' (Nat.digitChar (j + 1)) cc _).mp hpre
          rcases List.suffix_cons_iff.mp hsuf with heq | hsuf2
          · injection heq with he1 he2
            subst he1
            exact absurd hcc (by decide)
          · rcases List.suffix_cons_iff.mp hsuf2 with heq | hsuf3
            · injection heq with he1 he2
              subst he1
              exact absurd hcc (by decide)
            · simp at hsuf3
      · have hmx1 : mixedRender (j + 1) (c :: d :: rest) n =
            c :: mixedRender (j + 1) (d :: rest) n := by
          show (if c = '%' ∧ d = 's' then
              (if n ≤ j + 1 then dollarMarker n else pctS) ++ mixedRender (j + 1) rest (n + 1)
            else c :: mixedRender (j + 1) (d :: rest) n) = _
          rw [if_neg hm]
        have hmx2 : mixedRender j (c :: d :: rest) n =
            c :: mixedRender j (d :: rest) n := by
          show (if c = '%' ∧ d = 's' then
              (if n ≤ j then dollarMarker n else pctS) ++ mixedRender j rest (n + 1)
            else c :: mixedRender j (d :: rest) n) = _
          rw [if_neg hm]
        have hnd2 : noDollarDigit (d :: rest) = true := noDollarDigit_tail hnd
        rw [hmx1, hmx2, replaceAll_cons_neg pctS ?_,
          ih (d :: rest) (by simp at hs ⊢; omega) n j hn hj hnd2]
        intro hpre
        rw [hdm] at hpre
        obtain ⟨hceq, l', hl⟩ :=
          (pair_prefix_iff '$' (Nat.digitChar (j + 1)) c _).mp hpre
        have hdd : d.isDigit = false := noDollarDigit_head hnd hceq.symm
        have hhead := mixedRender_head_nodigit (j + 1) n d rest hdd
          (Nat.digitChar (j + 1)) (by rw [hl]; rfl)
        rw [digitChar_isDigit (j + 1) (by omega)] at hhead
        cases hhead

theorem dollarToPct_mixed (s : List Char) (hnd : noDollarDigit s = true) :
    ∀ j, j ≤ 9 → dollarToPct j (mixedRender j s 1) = s := by
  intro j
  induction j with
  | zero =>
    intro _
    show mixedRender 0 s 1 = s
    exact mixedRender_zero s.length s (le_refl _) 1 (by omega)
  | succ j ih =>
    intro hj
    rw [dollarToPct_step,
      mixedRender_step s.length s (le_refl _) 1 j (by omega) (by omega) hnd]
    exact ih (by omega)

/-- C2 (amended): for every SQL text with `k` sequential `%s` markers and no
numbered markers, the in-engine translation of `execute` replaces the markers
by exactly `$1, ..., $k` in left-to-right order (it equals the left-to-right
numbering scan); and provided `k ≤ 9`, applying the external-client inverse
translation (substituting `$i` for `i` from `k` down to `1`) reproduces the
original text, so translate-then-invert is the identity on such texts.  (For
`k ≥ 10` the round trip can fail; see the counterexample.) -/
theorem c2_translation_roundtrip :
    ∀ (s : List Char) (k : Nat), noDollarDigit s = true → markerCount s = k →
      convertPctToDollar s = scanTranslate s 1 ∧
      (k ≤ 9 → dollarToPct k (convertPctToDollar s) = s) := by
  intro s k hnd hk
  have h1 : convertPctToDollar s = scanTranslate s 1 :=
    toDollarAux_eq_scan s.length s (le_refl _) s.length 1 (List.countP_le_length _)
  refine ⟨h1, ?_⟩
  intro hk9
  rw [h1, ← mixedRender_all s.length s (le_refl _) 1 k (by omega)]
  exact dollarToPct_mixed s hnd k hk9

theorem c2_counterexample :
    noDollarDigit sqlTenMarkers = true ∧ markerCount sqlTenMarkers = 10 ∧
      dollarToPct 10 (convertPctToDollar sqlTenMarkers) ≠ sqlTenMarkers :=
  ⟨by decide, by decide, by decide⟩

theorem c2_witness :
    convertPctToDollar ("a = %s and b = %s").toList =
      scanTranslate ("a = %s and b = %s").toList 1 ∧
    dollarToPct 2 (convertPctToDollar ("a = %s and b = %s").toList) =
      ("a = %s and b = %s").toList := by
  have h := c2_translation_roundtrip ("a = %s and b = %s").toList 2 (by decide) (by decide)
  exact ⟨h.1, h.2 (by omega)⟩

/-! ## External-client rewrite over numbered-marker chunk texts -/

theorem noDollarDigit_suffix :
    ∀ {s t : List Char}, noDollarDigit s = true → t <:+ s → noDollarDigit t = true := by
  intro s
  induction s with
  | nil =>
    intro t h ht
    rw [List.suffix_nil.mp ht]
    rfl
  | cons c s' ih =>
    intro t h ht
    rcases List.suffix_cons_iff.mp ht with rfl | ht'
    · exact h
    · exact ih (noDollarDigit_tail h) ht'

theorem prefix_of_append_of_head (a b t : List Char)
    (ha : ∀ c ∈ a, c.isDigit = true)
    (ht : ∀ c, t.head? = some c → c.isDigit = false)
    (h : a <+: b ++ t) : a <+: b := by
  by_cases hlen : a.length ≤ b.length
  · have heq := List.prefix_iff_eq_take.mp h
    rw [List.take_append_of_le_length hlen] at heq
    rw [heq]
    exact List.take_prefix _ _
  · exfalso
    have heq := List.prefix_iff_eq_take.mp h
    rw [List.take_append_eq_append_take, List.take_of_length_le (by omega)] at heq
    cases t with
    | nil =>
      rw [List.take_nil, List.append_nil] at heq
      have := congrArg List.length heq
      simp at this
      omega
    | cons h0 t' =>
      have hk : a.length - b.length = (a.length - b.length - 1) + 1 := by omega
      rw [hk, List.take_succ_cons] at heq
      have hmem : h0 ∈ a := by
        rw [heq]
        exact List.mem_append.mpr (Or.inr (List.mem_cons_self _ _))
      have hd := ha h0 hmem
      have hnd := ht h0 rfl
      rw [hd] at hnd
      cases hnd

theorem chunksWF_tail {k : Nat} {ch : SqlChunk} {rest : List SqlChunk}
    (h : chunksWF k (ch :: rest) = true) : chunksWF k rest = true := by
  cases ch with
  | lit s =>
    have h2 : (!s.isEmpty && noDollarDigit s && noLitHead rest &&
        chunksWF k rest) = true := h
    simp only [Bool.and_eq_true] at h2
    exact h2.2
  | mark i =>
    have h2 : (decide (1 ≤ i) && decide (i ≤ k) && noDigitHead rest &&
        chunksWF k rest) = true := h
    simp only [Bool.and_eq_true] at h2
    exact h2.2

theorem renderChunks_head_after_lit {k : Nat} (j : Nat) {rest : List SqlChunk}
    (hwf : chunksWF k rest = true) (hnl : noLitHead rest = true) :
    ∀ c', (renderChunks j rest).head? = some c' → c'.isDigit = false := by
  intro c' hc'
  cases rest with
  | nil => cases hc'
  | cons ch r =>
    cases ch with
    | lit s => exact absurd hnl (by simp [noLitHead])
    | mark i =>
      have h1 : renderChunks j (SqlChunk.mark i :: r) =
          (if i ≤ j then dollarMarker i else pctS) ++ renderChunks j r := rfl
      rw [h1] at hc'
      by_cases hij : i ≤ j
      · rw [if_pos hij] at hc'
        have h2 : c' = '$' := by
          simp [dollarMarker] at hc'
          exact hc'.symm
        subst h2
        decide
      · rw [if_neg hij] at hc'
        have h2 : c' = '%' := by
          simp [pctS] at hc'
          exact hc'.symm
        subst h2
        decide

theorem renderChunks_head_after_mark {k : Nat} (j : Nat) {rest : List SqlChunk}
    (hwf : chunksWF k rest = true) (hnd : noDigitHead rest = true) :
    ∀ c', (renderChunks j rest).head? = some c' → c'.isDigit = false := by
  intro c' hc'
  cases rest with
  | nil => cases hc'
  | cons ch r =>
    cases ch with
    | lit s =>
      cases s with
      | nil =>
        exfalso
        have h2 : (!List.isEmpty ([] : List Char) && noDollarDigit [] &&
            noLitHead r && chunksWF k r) = true := hwf
        simp at h2
      | cons c0 s' =>
        have h1 : renderChunks j (SqlChunk.lit (c0 :: s') :: r) =
            c0 :: (s' ++ renderChunks j r) := rfl
        rw [h1] at hc'
        injection hc' with hc'
        subst hc'
        simpa [noDigitHead] using hnd
    | mark i =>
      have h1 : renderChunks j (SqlChunk.mark i :: r) =
          (if i ≤ j then dollarMarker i else pctS) ++ renderChunks j r := rfl
      rw [h1] at hc'
      by_cases hij : i ≤ j
      · rw [if_pos hij] at hc'
        have h2 : c' = '$' := by
          simp [dollarMarker] at hc'
          exact hc'.symm
        subst h2
        decide
      · rw [if_neg hij] at hc'
        have h2 : c' = '%' := by
          simp [pctS] at hc'
          exact hc'.symm
        subst h2
        decide

theorem renderChunks_step (k : Nat) :
    ∀ (chunks : List SqlChunk) (j : Nat), chunksWF k chunks = true →
      replaceAll (dollarMarker (j + 1)) pctS (renderChunks (j + 1) chunks) =
        renderChunks j chunks := by
  intro chunks
  induction chunks with
  | nil => intro j _; rfl
  | cons ch rest ih =>
    intro j hwf
    have hpat : dollarMarker (j + 1) = '$' :: natDigits (j + 1) := rfl
    cases ch with
    | lit s =>
      have h2 : (!s.isEmpty && noDollarDigit s && noLitHead rest &&
          chunksWF k rest) = true := hwf
      simp only [Bool.and_eq_true] at h2
      obtain ⟨⟨⟨hne, hnd⟩, hnl⟩, hwr⟩ := h2
      have h1 : renderChunks (j + 1) (SqlChunk.lit s :: rest) =
          s ++ renderChunks (j + 1) rest := rfl
      have h1' : renderChunks j (SqlChunk.lit s :: rest) =
          s ++ renderChunks j rest := rfl
      rw [h1, h1', replaceAll_skip _ _ _ _ ?_, ih j hwr]
      intro cc u hsuf hpre
      rw [hpat, List.cons_prefix_cons] at hpre
      obtain ⟨hcc, hpre2⟩ := hpre
      subst hcc
      cases u with
      | cons d u' =>
        have hdd : d.isDigit = false :=
          noDollarDigit_head (noDollarDigit_suffix hnd hsuf) rfl
        obtain ⟨e, nd', hnds⟩ : ∃ e nd', natDigits (j + 1) = e :: nd' := by
          cases hnds : natDigits (j + 1) with
          | nil => exact absurd hnds (natDigits_ne_nil _)
          | cons e nd' => exact ⟨e, nd', rfl⟩
        rw [hnds, List.cons_append, List.cons_prefix_cons] at hpre2
        obtain ⟨heq, -⟩ := hpre2
        have hed : e.isDigit = true :=
          natDigits_all_digit (j + 1) e (by rw [hnds]; exact List.mem_cons_self _ _)
        rw [heq, hdd] at hed
        cases hed
      | nil =>
        have hRhead : ∀ c', (renderChunks (j + 1) rest).head? = some c' →
            c'.isDigit = false :=
          renderChunks_head_after_lit (j + 1) hwr hnl
        obtain ⟨e, nd', hnds⟩ : ∃ e nd', natDigits (j + 1) = e :: nd' := by
          cases hnds : natDigits (j + 1) with
          | nil => exact absurd hnds (natDigits_ne_nil _)
          | cons e nd' => exact ⟨e, nd', rfl⟩
        rw [List.nil_append] at hpre2
        obtain ⟨tl, htl⟩ := hpre2
        rw [hnds, List.cons_append] at htl
        have hhd : (renderChunks (j + 1) rest).head? = some e := by
          rw [← htl]
          rfl
        have hed : e.isDigit = true :=
          natDigits_all_digit (j + 1) e (by rw [hnds]; exact List.mem_cons_self _ _)
        rw [hRhead e hhd] at hed
        cases hed
    | mark i =>
      have h2 : (decide (1 ≤ i) && decide (i ≤ k) && noDigitHead rest &&
          chunksWF k rest) = true := hwf
      simp only [Bool.and_eq_true, decide_eq_true_eq] at h2
      obtain ⟨⟨⟨hi1, hik⟩, hndh⟩, hwr⟩ := h2
      have h1 : renderChunks (j + 1) (SqlChunk.mark i :: rest) =
          (if i ≤ j + 1 then dollarMarker i else pctS) ++ renderChunks (j + 1) rest := rfl
      have h1' : renderChunks j (SqlChunk.mark i :: rest) =
          (if i ≤ j then dollarMarker i else pctS) ++ renderChunks j rest := rfl
      rw [h1, h1']
      by_cases hij : i ≤ j + 1
      · by_cases hieq : i = j + 1
        · subst hieq
          rw [if_pos hij, if_neg (by omega)]
          rw [hpat, replaceAll_cons_pat, ← hpat, ih j hwr]
        · rw [if_pos hij, if_pos (by omega)]
          rw [show dollarMarker i = '$' :: natDigits i from rfl,
            replaceAll_skip _ _ _ _ ?_,
            show ('$' :: natDigits i : List Char) = dollarMarker i from rfl, ih j hwr]
          intro cc u hsuf hpre
          rw [hpat, List.cons_prefix_cons] at hpre
          obtain ⟨hcc, hpre2⟩ := hpre
          rcases List.suffix_cons_iff.mp hsuf with heq | hsuf2
          · injection heq with he1 he2
            subst he2
            have hRhead : ∀ c', (renderChunks (j + 1) rest).head? = some c' →
                c'.isDigit = false :=
              renderChunks_head_after_mark (j + 1) hwr hndh
            have hp3 := prefix_of_append_of_head (natDigits (j + 1)) (natDigits i) _
              (natDigits_all_digit (j + 1)) hRhead hpre2
            have := natDigits_pref_le hp3
            omega
          · have hmem : cc ∈ natDigits i := by
              obtain ⟨pre, hpre'⟩ := hsuf2
              rw [← hpre']
              exact List.mem_append.mpr (Or.inr (List.mem_cons_self _ _))
            exact isDigit_ne_dollar (natDigits_all_digit i cc hmem) hcc.symm
      · rw [if_neg hij, if_neg (by omega)]
        rw [show (pctS : List Char) = ['%', 's'] from rfl,
          replaceAll_skip _ _ _ _ ?_,
          show (['%', 's'] : List Char) = pctS from rfl, ih j hwr]
        intro cc u hsuf hpre
        rw [hpat, List.cons_prefix_cons] at hpre
        obtain ⟨hcc, -⟩ := hpre
        rcases List.suffix_cons_iff.mp hsuf with heq | hsuf2
        · injection heq with he1 he2
          subst he1
          exact absurd hcc (by decide)
        · rcases List.suffix_cons_iff.mp hsuf2 with heq | hsuf3
          · injection heq with he1 he2
            subst he1
            exact absurd hcc (by decide)
          · simp at hsuf3

theorem dollarToPct_chunks (k : Nat) (chunks : List SqlChunk)
    (hwf : chunksWF k chunks = true) :
    ∀ j, dollarToPct j (renderChunks j chunks) = renderChunks 0 chunks := by
  intro j
  induction j with
  | zero => rfl
  | succ j ih =>
    rw [dollarToPct_step, renderChunks_step k chunks j hwf]
    exact ih

/-- C5: for any well-formed SQL text using numbered markers `$1 ... $k` with
`k` supplied parameters, the external-client rewrite of `execute` — which
scans indices from `k` down to `1` and substitutes every occurrence of `$i`
with `%s` — turns the fully numbered text into the same text with every
marker sequential; in particular no higher multi-digit marker (e.g. `$12`)
is ever corrupted by the substitution of a lower index (e.g. `$1`). -/
theorem c5_numbered_rewrite :
    ∀ (k : Nat) (chunks : List SqlChunk), chunksWF k chunks = true →
      dollarToPct k (renderChunks k chunks) = renderChunks 0 chunks :=
  fun k chunks hwf => dollarToPct_chunks k chunks hwf k

theorem c5_witness :
    dollarToPct 12 (renderChunks 12 chunksTwelve) = renderChunks 0 chunksTwelve :=
  c5_numbered_rewrite 12 chunksTwelve (by decide)
